import Mathlib

/-!
Shallow embedding of `src/obsFolderLister.ts` from Tomyail/remotely-save.

The module has three pieces: a breadth-first enumerator of the Obsidian
configuration folder (`listFilesInObsFolder`), a breadth-first enumerator of an
arbitrary set of adapter roots (`listFilesByAdapterPaths`), and a literal
prefix extractor used to compute allow-list roots for hidden paths
(`extractLiteralPrefix`, `getHiddenAllowListRoots`).

Strings are embedded through their character lists; the JavaScript string
operations used by the source (`trim`, `startsWith`, `endsWith`, `slice`,
`split`) are defined below on `List Char`. The two collaborators that live in
`src/misc.ts` (absent from this snapshot) are modelled from the spec and carry
doc comments saying so. The storage handle is an abstract record of the two
read operations the module performs.
-/

namespace ObsFolderLister

/-- Characters treated as whitespace by the JavaScript string `trim`
operation (the subset relevant to this module). -/
def isJsWhitespace (c : Char) : Bool :=
  c == ' ' || c == '\t' || c == '\n' || c == '\r' ||
  c == Char.ofNat 11 || c == Char.ofNat 12

/-- Embedding of the JavaScript `String.prototype.trim`: strip whitespace from
both ends. -/
def jsTrim (s : String) : String :=
  ⟨((s.data.dropWhile isJsWhitespace).reverse.dropWhile isJsWhitespace).reverse⟩

/-- Test whether the list `l` begins with the list `p`. -/
def leadsWith : List Char → List Char → Bool
  | [], _ => true
  | _ :: _, [] => false
  | a :: as, b :: bs => a == b && leadsWith as bs

/-- Embedding of the JavaScript `s.startsWith(p)`. -/
def strLeadsWith (s p : String) : Bool := leadsWith p.data s.data

/-- Embedding of the JavaScript `s.endsWith(p)`: `s` ends with `p` iff the
reversal of `s` begins with the reversal of `p`. -/
def strHasSuffix (s p : String) : Bool := leadsWith p.data.reverse s.data.reverse

/-- Drop the first `n` characters of a string (JavaScript `s.slice(n)`). -/
def strDrop (s : String) (n : Nat) : String := ⟨s.data.drop n⟩

/-- Source `isRegexMetaChar` (src/src/obsFolderLister.ts lines 143-145):
membership in the metacharacter string. The two brace characters are written
by code point. -/
def isRegexMetaChar (ch : Char) : Bool :=
  ch == '.' || ch == '+' || ch == '*' || ch == '?' || ch == '^' || ch == '$' ||
  ch == '(' || ch == ')' || ch == '[' || ch == ']' || ch == Char.ofNat 123 ||
  ch == Char.ofNat 125 || ch == '|' || ch == '\\'

/-- Scanning loop of `extractLiteralPrefix` (source lines 164-180): emit
literal characters, honour the backslash escape flag, stop at the first
unescaped regex metacharacter. -/
def scanLiteral : List Char → Bool → List Char
  | [], _ => []
  | c :: rest, true => c :: scanLiteral rest false
  | c :: rest, false =>
    if c == '\\' then scanLiteral rest true
    else if isRegexMetaChar c then []
    else c :: scanLiteral rest false

/-- Source `extractLiteralPrefix` (lines 147-182): trim, strip one leading
caret anchor, strip one leading `./`, special-case a leading escaped or bare
dot, then scan the longest literal run. -/
def extractLiteralPrefix (pattern : String) : String :=
  let s0 := jsTrim pattern
  let s1 := if strLeadsWith s0 "^" then strDrop s0 1 else s0
  let s2 := if strLeadsWith s1 "./" then strDrop s1 2 else s1
  let hs : String × Nat :=
    if strLeadsWith s2 "\\." then (".", 2)
    else if strLeadsWith s2 "." then (".", 1)
    else ("", 0)
  hs.1 ++ ⟨scanLiteral (s2.data.drop hs.2) false⟩

/-- Embedding of the JavaScript `p.split("/")` on character lists: empty parts
are preserved, the empty string yields one empty part. -/
def splitSlash : List Char → List (List Char)
  | [] => [[]]
  | c :: rest =>
    if c == '/' then [] :: splitSlash rest
    else
      match splitSlash rest with
      | [] => [[c]]
      | g :: gs => (c :: g) :: gs

/-- Source `isHiddenPathPrefix` (lines 184-189): the whole string starts with a
dot, or some slash-delimited part does. -/
def isHiddenPathPrefix (p : String) : Bool :=
  strLeadsWith p "." || (splitSlash p.data).any (fun part => leadsWith ['.'] part)

/-- Helper for `uniqueFirst`: `seen` holds the elements already emitted. -/
def uniqueFirstAux (seen : List String) : List String → List String
  | [] => []
  | x :: xs =>
    if seen.contains x then uniqueFirstAux seen xs
    else x :: uniqueFirstAux (x :: seen) xs

/-- Keep only the first occurrence of each element: model of iterating a
JavaScript `Set` built from an array, which preserves first-insertion order. -/
def uniqueFirst (l : List String) : List String := uniqueFirstAux [] l

/-- Source `getHiddenAllowListRoots` (lines 257-270): for each non-blank
trimmed pattern, keep its literal prefix when the prefix is longer than one
character and classifies as hidden; deduplicate the collected prefixes. -/
def getHiddenAllowListRoots (onlyAllowPaths : List String) : List String :=
  let roots := onlyAllowPaths.foldl
    (fun acc raw =>
      let trimmed := jsTrim raw
      if trimmed == "" then acc
      else
        let pfx := extractLiteralPrefix trimmed
        if decide (1 < pfx.length) && isHiddenPathPrefix pfx then acc ++ [pfx]
        else acc)
    []
  uniqueFirst roots

/-- Root seeding step of source `listFilesByAdapterPaths` (lines 195-197):
deduplicate the raw roots, then trim each, then drop empty strings. -/
def seedRoots (roots : List String) : List String :=
  ((uniqueFirst roots).map jsTrim).filter (fun r => r != "")

/-- Metadata record produced by a successful `statFix` call. -/
structure StatRes where
  type : String
  mtime : Option Nat
  size : Nat
  deriving DecidableEq

/-- Outcome of the external `statFix` collaborator on one path.
Modelled from the spec: `statFix` lives in `src/misc.ts`, which is not part of
this snapshot. Spec section 6 gives its contract: the metadata query returns
the record, or absent/null on not-found. The call sites in
`obsFolderLister.ts` additionally guard against the call rejecting (throwing),
so the model keeps all three outcomes. -/
inductive StatOutcome where
  | threw : StatOutcome
  | missing : StatOutcome
  | found : StatRes → StatOutcome
  deriving DecidableEq

/-- Child listing returned by `vault.adapter.list` for a folder. -/
structure Children where
  folders : List String
  files : List String
  deriving DecidableEq

/-- Abstract storage handle: the `vault` collaborator of the source, reduced
to the two read operations the module uses. -/
structure Vault where
  stat : String → StatOutcome
  list : String → Children

/-- Source `Entity` (imported from `src/baseTypes.ts`), restricted to the
fields this module writes. -/
structure Entity where
  key : String
  keyRaw : String
  mtimeCli : Option Nat
  mtimeSvr : Option Nat
  size : Nat
  sizeRaw : Nat
  deriving DecidableEq

/-- Source `isPluginDirItself` (lines 9-16). -/
def isPluginDirItself (x pluginId : String) : Bool :=
  x == pluginId || x == pluginId ++ "/" ||
  strHasSuffix x ("/" ++ pluginId) || strHasSuffix x ("/" ++ pluginId ++ "/")

/-- The known plugin sub-file names of source `isLikelyPluginSubFiles`
(lines 19-25). -/
def reqFiles : List String :=
  ["data.json", "main.js", "manifest.json", ".gitignore", "styles.css"]

/-- Source `isLikelyPluginSubFiles` (lines 18-32). -/
def isLikelyPluginSubFiles (x : String) : Bool :=
  reqFiles.any (fun f => x == f || strHasSuffix x ("/" ++ f))

/-- Modelled from the spec: `isSpecialFolderNameToSkip` lives in
`src/misc.ts`, not in this snapshot. Spec section 6 gives the collaborator
contract: the predicate is true iff the name equals one of the reserved
entries or ends with a slash followed by one. -/
def isSpecialFolderNameToSkip (x : String) (entries : List String) : Bool :=
  entries.any (fun e => x == e || strHasSuffix x ("/" ++ e))

/-- Helper for `chunkList`: `budget` counts how many more items fit into the
chunk under construction, `cur` holds that chunk in reverse. -/
def chunkAux : Nat → List String → List String → List (List String)
  | _, [], cur => [cur.reverse]
  | 0, y :: ys, cur => cur.reverse :: chunkAux 9 ys [y]
  | n + 1, y :: ys, cur => chunkAux n ys (y :: cur)

/-- Partition a list into consecutive chunks of at most ten elements: the
source's lodash `chunk(itemsToFetch, CHUNK_SIZE)` with `CHUNK_SIZE = 10`
(lines 41, 52). -/
def chunkList : List String → List (List String)
  | [] => []
  | x :: xs => chunkAux 9 xs [x]

/-- Sequence fallible computations over a list: model of awaiting
`Promise.all` over the mapped per-item fetches, reporting the first failure in
input order. -/
def mapExcept (f : String → Except String α) : List String → Except String (List α)
  | [] => .ok []
  | x :: xs =>
    match f x with
    | .error e => .error e
    | .ok y =>
      match mapExcept f xs with
      | .error e => .error e
      | .ok ys => .ok (y :: ys)

/-- Per-item fetch of `listFilesInObsFolder` (source lines 54-88): a missing
(absent/null) metadata result raises the fatal listing error; a rejected
`statFix` call propagates, there being no catch in this mode; a non-folder
with an absent or zero modification time raises the fatal mtime error. -/
def fetchOneObs (v : Vault) (configDir x : String) :
    Except String (Entity × Option Children) :=
  match v.stat x with
  | .threw => .error "statFix rejected"
  | .missing => .error "something goes wrong while listing hidden folder"
  | .found statRes =>
    if !(statRes.type == "folder") && (statRes.mtime == none || statRes.mtime == some 0) then
      .error ("File in Obsidian " ++ configDir ++ " has last modified time 0: " ++ x)
    else
      .ok ({ key := if statRes.type == "folder" then x ++ "/" else x
             keyRaw := if statRes.type == "folder" then x ++ "/" else x
             mtimeCli := statRes.mtime
             mtimeSvr := statRes.mtime
             size := statRes.size
             sizeRaw := statRes.size },
           if statRes.type == "folder" then some (v.list x) else none)

/-- Child admission test of `listFilesInObsFolder` (source lines 95-118): a
child is enqueued unless its name matches the reserved-name skip predicate,
or the parent is the plugin's own directory and the child is not a known
plugin sub-file. -/
def childKeep (pluginId parentKey name : String) : Bool :=
  !(isSpecialFolderNameToSkip name ["workspace", "workspace.json"]) &&
  (!(isPluginDirItself parentKey pluginId) || isLikelyPluginSubFiles name)

/-- Consumption of one fetched item in `listFilesInObsFolder` (source lines
91-120): append the entity to the output and enqueue the admitted children,
folders first, then files. -/
def absorbObs (pluginId : String) (acc : List Entity × List String)
    (r : Entity × Option Children) : List Entity × List String :=
  match r with
  | (ent, none) => (acc.1 ++ [ent], acc.2)
  | (ent, some ch) =>
    (acc.1 ++ [ent],
      acc.2 ++ ch.folders.filter (childKeep pluginId ent.key)
            ++ ch.files.filter (childKeep pluginId ent.key))

/-- Chunk loop of one level of `listFilesInObsFolder` (source lines 52-121). -/
def runChunksObs (v : Vault) (configDir pluginId : String) :
    List (List String) → List Entity → List String →
    Except String (List Entity × List String)
  | [], contents, nextQ => .ok (contents, nextQ)
  | c :: cs, contents, nextQ =>
    match mapExcept (fetchOneObs v configDir) c with
    | .error e => .error e
    | .ok rs =>
      let st := rs.foldl (absorbObs pluginId) (contents, nextQ)
      runChunksObs v configDir pluginId cs st.1 st.2

/-- Outer while-loop of `listFilesInObsFolder` (source lines 44-129): drain
the whole queue into one level, process it in chunks, and, in bookmarks-only
mode, break once the round index exceeds one, the check coming after the
round's work. `fuel` bounds the number of processed levels; `none` reports
that the bound was reached with work left. -/
def obsLoop (v : Vault) (configDir pluginId : String) (bookmarksOnly : Bool) :
    Nat → Nat → List String → List Entity → Option (Except String (List Entity))
  | _, _, [], contents => some (.ok contents)
  | 0, _, _ :: _, _ => none
  | fuel + 1, iterRound, q@(_ :: _), contents =>
    match runChunksObs v configDir pluginId (chunkList q) contents [] with
    | .error e => some (.error e)
    | .ok st =>
      if bookmarksOnly && decide (iterRound > 1) then some (.ok st.1)
      else obsLoop v configDir pluginId bookmarksOnly fuel (iterRound + 1) st.2 st.1

/-- Traversal part of source `listFilesInObsFolder` (lines 34-129), before the
bookmarks-only post-filter. -/
def obsTraverse (configDir : String) (v : Vault) (pluginId : String)
    (bookmarksOnly : Bool) (fuel : Nat) : Option (Except String (List Entity)) :=
  obsLoop v configDir pluginId bookmarksOnly fuel 0 [configDir] []

/-- Source `listFilesInObsFolder` (lines 34-141): the traversal plus, in
bookmarks-only mode, the final filter keeping only the root folder key and the
root bookmarks file key (lines 133-138). -/
def listFilesInObsFolder (configDir : String) (v : Vault) (pluginId : String)
    (bookmarksOnly : Bool) (fuel : Nat) : Option (Except String (List Entity)) :=
  (obsTraverse configDir v pluginId bookmarksOnly fuel).map
    (Except.map (fun contents =>
      if bookmarksOnly then
        contents.filter (fun e =>
          e.key == configDir ++ "/" || e.key == configDir ++ "/bookmarks.json")
      else contents))

/-- Per-item fetch of `listFilesByAdapterPaths` (source lines 211-234): only a
rejected `statFix` call is caught and turned into a skipped item
(`return undefined`); a metadata result that is absent/null escapes the catch
and the following field access on it fails the whole call, as the JavaScript
TypeError would. -/
def fetchOneAdapter (v : Vault) (x : String) :
    Except String (Option (Entity × Option Children)) :=
  match v.stat x with
  | .threw => .ok none
  | .missing => .error "TypeError: statRes is undefined"
  | .found statRes =>
    .ok (some ({ key := if statRes.type == "folder" then x ++ "/" else x
                 keyRaw := if statRes.type == "folder" then x ++ "/" else x
                 mtimeCli := statRes.mtime
                 mtimeSvr := statRes.mtime
                 size := statRes.size
                 sizeRaw := statRes.size },
                if statRes.type == "folder" then some (v.list x) else none))

/-- Consumption of one fetched item in `listFilesByAdapterPaths` (source lines
237-250): skipped items contribute nothing; every child is enqueued with no
filtering. -/
def absorbAdapter (acc : List Entity × List String)
    (r : Option (Entity × Option Children)) : List Entity × List String :=
  match r with
  | none => acc
  | some (ent, none) => (acc.1 ++ [ent], acc.2)
  | some (ent, some ch) => (acc.1 ++ [ent], acc.2 ++ ch.folders ++ ch.files)

/-- Chunk loop of one level of `listFilesByAdapterPaths` (source lines
209-251). -/
def runChunksAdapter (v : Vault) :
    List (List String) → List Entity → List String →
    Except String (List Entity × List String)
  | [], contents, nextQ => .ok (contents, nextQ)
  | c :: cs, contents, nextQ =>
    match mapExcept (fetchOneAdapter v) c with
    | .error e => .error e
    | .ok rs =>
      let st := rs.foldl absorbAdapter (contents, nextQ)
      runChunksAdapter v cs st.1 st.2

/-- Outer while-loop of `listFilesByAdapterPaths` (source lines 203-252):
same level structure as the configuration listing, with no round counting and
no early stop. -/
def rootsLoop (v : Vault) :
    Nat → List String → List Entity → Option (Except String (List Entity))
  | _, [], contents => some (.ok contents)
  | 0, _ :: _, _ => none
  | fuel + 1, q@(_ :: _), contents =>
    match runChunksAdapter v (chunkList q) contents [] with
    | .error e => some (.error e)
    | .ok st => rootsLoop v fuel st.2 st.1

/-- Source `listFilesByAdapterPaths` (lines 191-255): seed the queue with the
deduplicated, trimmed, non-blank roots and run the traversal. -/
def listFilesByAdapterPaths (roots : List String) (v : Vault) (fuel : Nat) :
    Option (Except String (List Entity)) :=
  rootsLoop v fuel (seedRoots roots) []

/-- Path stem of an entity key: the key with a trailing slash removed when one
is present. -/
def stemOf (k : String) : String :=
  if strHasSuffix k "/" then ⟨k.data.dropLast⟩ else k

/-- Checkable statement of the trailing-slash invariant for one produced
entity: the metadata of the entity's path stem exists, its reported type
agrees with the presence of the trailing slash on the key, and both key
fields coincide. -/
def keySlashConsistent (v : Vault) (e : Entity) : Bool :=
  match v.stat (stemOf e.key) with
  | .found s => (strHasSuffix e.key "/" == (s.type == "folder")) && (e.keyRaw == e.key)
  | _ => false

/-- Storage for the missing-metadata scenario: path `a` has absent/null
metadata, path `b` is an ordinary file. -/
def vaultMissingA : Vault :=
  { stat := fun x =>
      if x == "a" then .missing
      else if x == "b" then .found { type := "file", mtime := some 3, size := 2 }
      else .missing
    list := fun _ => { folders := [], files := [] } }

/-- Storage for the thrown-metadata scenario: the fetch for path `a` rejects,
path `b` is an ordinary file. -/
def vaultThrowA : Vault :=
  { stat := fun x =>
      if x == "a" then .threw
      else if x == "b" then .found { type := "file", mtime := some 3, size := 2 }
      else .threw
    list := fun _ => { folders := [], files := [] } }

/-- Storage whose level-two child is named exactly `c/bookmarks.json`: folder
`c` contains folder `d`, and `d` lists that file. -/
def vaultDeepBookmarks : Vault :=
  { stat := fun x =>
      if x == "c" then .found { type := "folder", mtime := some 1, size := 0 }
      else if x == "d" then .found { type := "folder", mtime := some 1, size := 0 }
      else if x == "c/bookmarks.json" then .found { type := "file", mtime := some 5, size := 7 }
      else .missing
    list := fun x =>
      if x == "c" then { folders := ["d"], files := [] }
      else if x == "d" then { folders := [], files := ["c/bookmarks.json"] }
      else { folders := [], files := [] } }

/-- Storage listing the same child path twice under the root folder. -/
def vaultDupBookmarks : Vault :=
  { stat := fun x =>
      if x == "c" then .found { type := "folder", mtime := some 1, size := 0 }
      else if x == "c/bookmarks.json" then .found { type := "file", mtime := some 5, size := 7 }
      else .missing
    list := fun x =>
      if x == "c" then { folders := [], files := ["c/bookmarks.json", "c/bookmarks.json"] }
      else { folders := [], files := [] } }

/-- Storage where the configuration root itself is a file named `workspace`. -/
def vaultWorkspaceRoot : Vault :=
  { stat := fun x =>
      if x == "workspace" then .found { type := "file", mtime := some 1, size := 0 }
      else .missing
    list := fun _ => { folders := [], files := [] } }

/-- Storage with a realistic plugin directory holding `data.json` and
`secret.db`. -/
def vaultPluginDir : Vault :=
  { stat := fun x =>
      if x == ".obsidian" then .found { type := "folder", mtime := some 1, size := 0 }
      else if x == ".obsidian/plugins/remotely-save" then
        .found { type := "folder", mtime := some 2, size := 0 }
      else if x == ".obsidian/plugins/remotely-save/data.json" then
        .found { type := "file", mtime := some 3, size := 9 }
      else if x == ".obsidian/plugins/remotely-save/secret.db" then
        .found { type := "file", mtime := some 4, size := 9 }
      else .missing
    list := fun x =>
      if x == ".obsidian" then { folders := [".obsidian/plugins/remotely-save"], files := [] }
      else if x == ".obsidian/plugins/remotely-save" then
        { folders := []
          files := [".obsidian/plugins/remotely-save/data.json",
                    ".obsidian/plugins/remotely-save/secret.db"] }
      else { folders := [], files := [] } }

/-- Storage whose folder `r` lists a file child whose name carries a trailing
slash. -/
def vaultSlashFile : Vault :=
  { stat := fun x =>
      if x == "r" then .found { type := "folder", mtime := some 1, size := 0 }
      else if x == "b/" then .found { type := "file", mtime := some 2, size := 1 }
      else .missing
    list := fun x =>
      if x == "r" then { folders := [], files := ["b/"] }
      else { folders := [], files := [] } }

/-- Storage where the configuration root `c` is a plain file. -/
def vaultFileRoot : Vault :=
  { stat := fun x =>
      if x == "c" then .found { type := "file", mtime := some 7, size := 1 }
      else .missing
    list := fun _ => { folders := [], files := [] } }

/-- Storage with a single file root `c` and no children anywhere. -/
def vaultLoneFile : Vault :=
  { stat := fun x =>
      if x == "c" then .found { type := "file", mtime := some 6, size := 4 }
      else .missing
    list := fun _ => { folders := [], files := [] } }

/-! ### Lemmas about the character-level string operations -/

theorem leadsWith_length {p l : List Char} (h : leadsWith p l = true) :
    p.length ≤ l.length := by
  induction p generalizing l with
  | nil => simp
  | cons a as ih =>
    cases l with
    | nil => simp [leadsWith] at h
    | cons b bs =>
      simp only [leadsWith, Bool.and_eq_true] at h
      simpa [Nat.succ_le_succ_iff] using ih h.2

theorem leadsWith_trans {p q l : List Char} (h1 : leadsWith p q = true)
    (h2 : leadsWith q l = true) : leadsWith p l = true := by
  induction p generalizing q l with
  | nil => simp [leadsWith]
  | cons a as ih =>
    cases q with
    | nil => simp [leadsWith] at h1
    | cons b bs =>
      cases l with
      | nil => simp [leadsWith] at h2
      | cons c cs =>
        simp only [leadsWith, Bool.and_eq_true, beq_iff_eq] at h1 h2 ⊢
        exact ⟨h1.1.trans h2.1, ih h1.2 h2.2⟩

theorem leadsWith_mono {p q l : List Char} (hp : leadsWith p l = true)
    (hq : leadsWith q l = true) (hlen : p.length ≤ q.length) :
    leadsWith p q = true := by
  induction p generalizing q l with
  | nil => simp [leadsWith]
  | cons a as ih =>
    cases q with
    | nil => simp at hlen
    | cons b bs =>
      cases l with
      | nil => simp [leadsWith] at hp
      | cons c cs =>
        simp only [leadsWith, Bool.and_eq_true, beq_iff_eq] at hp hq ⊢
        refine ⟨hp.1.trans hq.1.symm, ih hp.2 hq.2 ?_⟩
        simpa using hlen

theorem string_length_eq_data (s : String) : s.length = s.data.length := rfl

theorem string_data_append (s t : String) : (s ++ t).data = s.data ++ t.data := rfl

theorem strHasSuffix_length {s p : String} (h : strHasSuffix s p = true) :
    p.length ≤ s.length := by
  have h2 := leadsWith_length h
  rw [string_length_eq_data, string_length_eq_data]
  simpa using h2

theorem strHasSuffix_trans {s q p : String} (h1 : strHasSuffix s q = true)
    (h2 : strHasSuffix q p = true) : strHasSuffix s p = true :=
  leadsWith_trans h2 h1

theorem strHasSuffix_mono {s p q : String} (hp : strHasSuffix s p = true)
    (hq : strHasSuffix s q = true) (hlen : p.length ≤ q.length) :
    strHasSuffix q p = true := by
  refine leadsWith_mono hp hq ?_
  rw [string_length_eq_data, string_length_eq_data] at hlen
  simpa using hlen

theorem strHasSuffix_append_slash (x : String) :
    strHasSuffix (x ++ "/") "/" = true := by
  unfold strHasSuffix
  rw [string_data_append]
  rw [show ("/" : String).data = ['/'] from rfl, List.reverse_append]
  simp [leadsWith]

theorem data_ne_nil_of_ne_empty {p : String} (h : p ≠ "") : p.data ≠ [] := by
  intro hd
  apply h
  cases p
  simp_all

theorem strHasSuffix_append_slash_of (x p : String)
    (hp : strHasSuffix p "/" = false) (hne : p ≠ "") :
    strHasSuffix (x ++ "/") p = false := by
  by_contra hcon
  rw [Bool.not_eq_false] at hcon
  obtain ⟨c, cs, hrev⟩ : ∃ c cs, p.data.reverse = c :: cs := by
    cases hd : p.data.reverse with
    | nil =>
      exfalso
      apply data_ne_nil_of_ne_empty hne
      simpa using congrArg List.reverse hd
    | cons c cs => exact ⟨c, cs, rfl⟩
  unfold strHasSuffix at hcon
  rw [string_data_append, show ("/" : String).data = ['/'] from rfl,
    List.reverse_append, hrev] at hcon
  simp only [List.reverse_cons, List.reverse_nil, List.nil_append,
    List.singleton_append, leadsWith, Bool.and_eq_true, beq_iff_eq] at hcon
  unfold strHasSuffix at hp
  rw [show ("/" : String).data.reverse = ['/'] from rfl, hrev, hcon.1] at hp
  simp [leadsWith] at hp

theorem beq_append_slash_false (x w : String)
    (hw : strHasSuffix w "/" = false) : (x ++ "/" == w) = false := by
  rw [beq_eq_false_iff_ne]
  intro h
  rw [← h, strHasSuffix_append_slash] at hw
  simp at hw

theorem self_beq_append_false (a d : String) (hd : d.length ≠ 0) :
    (a == a ++ d) = false := by
  rw [beq_eq_false_iff_ne]
  intro h
  have h2 := congrArg String.length h
  rw [String.length_append] at h2
  omega

theorem special_append_slash (x : String) :
    isSpecialFolderNameToSkip (x ++ "/") ["workspace", "workspace.json"] = false := by
  have h1 := beq_append_slash_false x "workspace" (by decide)
  have h2 := strHasSuffix_append_slash_of x "/workspace" (by decide) (by decide)
  have h3 := beq_append_slash_false x "workspace.json" (by decide)
  have h4 := strHasSuffix_append_slash_of x "/workspace.json" (by decide) (by decide)
  simp [isSpecialFolderNameToSkip, h1, h2, h3, h4]

/-! ### Lemmas for the allow-list and root-seeding components -/

theorem beq_symm_false {α : Type} [BEq α] [LawfulBEq α] {a b : α}
    (h : (a == b) = false) : (b == a) = false := by
  rw [beq_eq_false_iff_ne] at h ⊢
  exact fun h2 => h h2.symm

theorem uniqueFirstAux_subset :
    ∀ (l seen : List String) (x : String), x ∈ uniqueFirstAux seen l → x ∈ l := by
  intro l
  induction l with
  | nil => intro seen x hx; simp [uniqueFirstAux] at hx
  | cons a as ih =>
    intro seen x hx
    rw [uniqueFirstAux] at hx
    by_cases hs : seen.contains a
    · rw [if_pos hs] at hx
      exact List.mem_cons_of_mem _ (ih seen x hx)
    · rw [if_neg hs] at hx
      rcases List.mem_cons.1 hx with h | h
      · exact h ▸ List.mem_cons_self _ _
      · exact List.mem_cons_of_mem _ (ih (a :: seen) x h)

theorem uniqueFirstAux_not_seen :
    ∀ (l seen : List String) (x : String), x ∈ uniqueFirstAux seen l →
      seen.contains x = false := by
  intro l
  induction l with
  | nil => intro seen x hx; simp [uniqueFirstAux] at hx
  | cons a as ih =>
    intro seen x hx
    rw [uniqueFirstAux] at hx
    by_cases hs : seen.contains a
    · rw [if_pos hs] at hx
      exact ih seen x hx
    · rw [if_neg hs] at hx
      rcases List.mem_cons.1 hx with h | h
      · subst h
        simpa using hs
      · have h2 := ih (a :: seen) x h
        simp only [List.contains_cons, Bool.or_eq_false_iff] at h2
        exact h2.2

theorem uniqueFirstAux_nodup : ∀ (l seen : List String), (uniqueFirstAux seen l).Nodup := by
  intro l
  induction l with
  | nil => intro seen; simp [uniqueFirstAux]
  | cons a as ih =>
    intro seen
    rw [uniqueFirstAux]
    by_cases hs : seen.contains a
    · rw [if_pos hs]; exact ih seen
    · rw [if_neg hs]
      refine List.nodup_cons.2 ⟨?_, ih (a :: seen)⟩
      intro hmem
      have h2 := uniqueFirstAux_not_seen _ _ _ hmem
      simp at h2

theorem uniqueFirst_subset (l : List String) (x : String) (h : x ∈ uniqueFirst l) :
    x ∈ l :=
  uniqueFirstAux_subset l [] x h

theorem uniqueFirst_nodup (l : List String) : (uniqueFirst l).Nodup :=
  uniqueFirstAux_nodup l []

theorem map_jsTrim_id : ∀ l : List String, (∀ x ∈ l, jsTrim x = x) → l.map jsTrim = l := by
  intro l h
  induction l with
  | nil => rfl
  | cons a as ih =>
    simp only [List.map_cons, h a (List.mem_cons_self _ _), List.cons.injEq, true_and]
    exact ih fun x hx => h x (List.mem_cons_of_mem _ hx)

/-! ### Lemmas about trimming and the literal-prefix scanner -/

theorem string_empty_append (y : String) : ("" : String) ++ y = y := rfl

theorem dropWhile_eq_self_head {p : Char → Bool} {c : Char} {t : List Char}
    (h : List.dropWhile p (c :: t) = c :: t) : p c = false := by
  by_contra hc
  rw [Bool.not_eq_false] at hc
  rw [List.dropWhile_cons_of_pos hc] at h
  have := congrArg List.length h
  have h2 : (t.dropWhile p).length ≤ t.length :=
    List.Sublist.length_le (List.dropWhile_sublist _)
  simp at this
  omega

theorem string_ext_data {a b : String} (h : a.data = b.data) : a = b := by
  cases a; cases b; exact congrArg String.mk h

theorem jsTrim_fixed_parts {s : String} (h : jsTrim s = s) :
    s.data.dropWhile isJsWhitespace = s.data ∧
    s.data.reverse.dropWhile isJsWhitespace = s.data.reverse := by
  have hdata : ((s.data.dropWhile isJsWhitespace).reverse.dropWhile
      isJsWhitespace).reverse = s.data := congrArg String.data h
  have hA : (s.data.dropWhile isJsWhitespace).length ≤ s.data.length :=
    List.Sublist.length_le (List.dropWhile_sublist _)
  have hB : ((s.data.dropWhile isJsWhitespace).reverse.dropWhile
      isJsWhitespace).length ≤ (s.data.dropWhile isJsWhitespace).reverse.length :=
    List.Sublist.length_le (List.dropWhile_sublist _)
  have hlen := congrArg List.length hdata
  simp only [List.length_reverse] at hlen hB
  have hAlen : (s.data.dropWhile isJsWhitespace).length = s.data.length := by omega
  have hAeq : s.data.dropWhile isJsWhitespace = s.data :=
    List.Sublist.eq_of_length (List.dropWhile_sublist _) hAlen
  refine ⟨hAeq, ?_⟩
  rw [hAeq] at hdata
  have h2 := congrArg List.reverse hdata
  simpa using h2

theorem dropWhile_backslash_head (t : List Char) :
    List.dropWhile isJsWhitespace ('\\' :: t) = '\\' :: t := by
  rw [List.dropWhile_cons]
  simp [show isJsWhitespace '\\' = false from by decide]

theorem jsTrim_append_backslash {s : String} (h : jsTrim s = s) :
    jsTrim (s ++ "\\") = s ++ "\\" := by
  obtain ⟨h1, _⟩ := jsTrim_fixed_parts h
  apply string_ext_data
  show (((s ++ "\\").data.dropWhile isJsWhitespace).reverse.dropWhile
    isJsWhitespace).reverse = (s ++ "\\").data
  rw [string_data_append, show ("\\" : String).data = ['\\'] from rfl]
  have hfront : (s.data ++ ['\\']).dropWhile isJsWhitespace = s.data ++ ['\\'] := by
    cases hd : s.data with
    | nil => simpa using dropWhile_backslash_head []
    | cons c t =>
      rw [hd] at h1
      have hc := dropWhile_eq_self_head h1
      rw [List.cons_append, List.dropWhile_cons, hc]
      simp
  rw [hfront, List.reverse_append]
  simp only [List.reverse_cons, List.reverse_nil, List.nil_append, List.singleton_append]
  rw [dropWhile_backslash_head]
  simp

theorem scanLiteral_append_backslash :
    ∀ l : List Char, (∀ c ∈ l, isRegexMetaChar c = false) →
      scanLiteral (l ++ ['\\']) false = scanLiteral l false := by
  intro l hm
  induction l with
  | nil => rfl
  | cons c t ih =>
    have hc := hm c (List.mem_cons_self _ _)
    have hcb : (c == '\\') = false := by
      by_contra hb
      rw [Bool.not_eq_false, beq_iff_eq] at hb
      subst hb
      simp [isRegexMetaChar] at hc
    simp only [List.cons_append, scanLiteral, hcb, hc]
    simp only [Bool.false_eq_true, if_false, List.cons.injEq, true_and]
    exact ih fun d hd => hm d (List.mem_cons_of_mem _ hd)

theorem extract_no_pre (p : String) (h0 : jsTrim p = p)
    (h1 : strLeadsWith p "^" = false) (h2 : strLeadsWith p "./" = false)
    (h3 : strLeadsWith p "\\." = false) (h4 : strLeadsWith p "." = false) :
    extractLiteralPrefix p = ⟨scanLiteral p.data false⟩ := by
  unfold extractLiteralPrefix
  simp [h0, h1, h2, h3, h4, string_empty_append]

/-- C2: the three allow-list test vectors of the spec, with the third
corrected: the pattern `.x` has literal prefix `.x` of length two, which does
pass the length check and the hidden check, so it is returned rather than
excluded. The first two vectors hold as claimed. -/
theorem c2_allowlist_vectors :
    getHiddenAllowListRoots ["^\\.foo/bar.*"] = [".foo/bar"] ∧
    getHiddenAllowListRoots ["plainname"] = [] ∧
    getHiddenAllowListRoots [".x"] = [".x"] := by
  refine ⟨by decide, by decide, by decide⟩

/-- C2 counterexample: on input `[".x"]` the resolver returns `[".x"]`, not
the empty collection the claim demands. -/
theorem c2_allowlist_dotx_not_empty :
    getHiddenAllowListRoots [".x"] ≠ [] := by
  decide

/-- C4 (amended): the seeding step deduplicates before trimming, so when every
supplied root is already trim-fixed the seeded queue has no duplicates; in
all cases every seeded entry is the trim of some supplied root and is
non-blank. -/
theorem c4_seed_roots_shape :
    (∀ roots : List String, (∀ r ∈ roots, jsTrim r = r) → (seedRoots roots).Nodup) ∧
    (∀ (roots : List String) (x : String), x ∈ seedRoots roots →
      x ≠ "" ∧ ∃ r ∈ roots, x = jsTrim r) := by
  constructor
  · intro roots h
    unfold seedRoots
    rw [map_jsTrim_id _ fun x hx => h x (uniqueFirst_subset _ _ hx)]
    exact List.Nodup.filter _ (uniqueFirst_nodup roots)
  · intro roots x hx
    unfold seedRoots at hx
    have h1 := List.mem_of_mem_filter hx
    have h2 := List.of_mem_filter hx
    refine ⟨by simpa using h2, ?_⟩
    obtain ⟨r, hr, hrx⟩ := List.mem_map.1 h1
    exact ⟨r, uniqueFirst_subset _ _ hr, hrx.symm⟩

/-- C4 witness: a concrete already-trimmed root list seeds a duplicate-free
queue. -/
theorem c4_seed_roots_shape_witness : (seedRoots ["a", "b"]).Nodup :=
  c4_seed_roots_shape.1 ["a", "b"] (by decide)

/-- C4 counterexample: deduplication happens before trimming, so the raw
roots `" a"` and `"a"` survive deduplication and trim to the same string;
the seeded queue contains two equal post-trim entries. -/
theorem c4_seed_roots_duplicate :
    seedRoots [" a", "a"] = ["a", "a"] ∧ ¬ (["a", "a"] : List String).Nodup := by
  refine ⟨by decide, by decide⟩

/-- C10 (amended): for a pattern with no regex metacharacters and no
surrounding whitespace, appending a single trailing backslash does not change
the extracted literal prefix — the backslash is consumed by the escape flag
without being emitted; the claim's own example `.foo\` also evaluates to
`.foo`. The whitespace condition is needed because trimming `s ++ "\\"` keeps
interior whitespace that trimming `s` would drop from its end. -/
theorem c10_trailing_backslash :
    (∀ s : String, (∀ c ∈ s.data, isRegexMetaChar c = false) → jsTrim s = s →
      extractLiteralPrefix (s ++ "\\") = extractLiteralPrefix s) ∧
    extractLiteralPrefix ".foo\\" = ".foo" := by
  constructor
  · intro s hmeta htrim
    cases hd : s.data with
    | nil =>
      have hs : s = "" := by cases s; simp_all
      subst hs
      decide
    | cons c t =>
      have hc : isRegexMetaChar c = false := hmeta c (by rw [hd]; exact List.mem_cons_self _ _)
      have hne : ∀ d : Char, isRegexMetaChar d = true → (c == d) = false := by
        intro d hdm
        by_contra hb
        rw [Bool.not_eq_false, beq_iff_eq] at hb
        rw [hb, hdm] at hc
        simp at hc
      have happ : (s ++ "\\").data = c :: (t ++ ['\\']) := by
        rw [string_data_append, hd, show ("\\" : String).data = ['\\'] from rfl]
        rfl
      have hlead : ∀ (a : Char) (rest : List Char),
          (c == a) = false → leadsWith (a :: rest) (c :: t) = false ∧
            leadsWith (a :: rest) (c :: (t ++ ['\\'])) = false := by
        intro a rest ha
        have ha2 : (a == c) = false := beq_symm_false ha
        constructor <;> simp [leadsWith, ha2]
      have hcaret := hlead '^' [] (hne '^' (by decide))
      have hdot := hlead '.' [] (hne '.' (by decide))
      have hdotslash := hlead '.' ['/'] (hne '.' (by decide))
      have hback := hlead '\\' ['.'] (hne '\\' (by decide))
      have hs1 := extract_no_pre s htrim
        (by unfold strLeadsWith; rw [show ("^" : String).data = ['^'] from rfl, hd]; exact hcaret.1)
        (by unfold strLeadsWith; rw [show ("./" : String).data = ['.', '/'] from rfl, hd]; exact hdotslash.1)
        (by unfold strLeadsWith; rw [show ("\\." : String).data = ['\\', '.'] from rfl, hd]; exact hback.1)
        (by unfold strLeadsWith; rw [show ("." : String).data = ['.'] from rfl, hd]; exact hdot.1)
      have hs2 := extract_no_pre (s ++ "\\") (jsTrim_append_backslash htrim)
        (by unfold strLeadsWith; rw [show ("^" : String).data = ['^'] from rfl, happ]; exact hcaret.2)
        (by unfold strLeadsWith; rw [show ("./" : String).data = ['.', '/'] from rfl, happ]; exact hdotslash.2)
        (by unfold strLeadsWith; rw [show ("\\." : String).data = ['\\', '.'] from rfl, happ]; exact hback.2)
        (by unfold strLeadsWith; rw [show ("." : String).data = ['.'] from rfl, happ]; exact hdot.2)
      rw [hs1, hs2, string_data_append, show ("\\" : String).data = ['\\'] from rfl]
      rw [scanLiteral_append_backslash s.data hmeta]
  · decide

/-- C10 witness: the general part applied to the metacharacter-free trimmed
pattern `ab`. -/
theorem c10_trailing_backslash_witness :
    extractLiteralPrefix ("ab" ++ "\\") = extractLiteralPrefix "ab" :=
  c10_trailing_backslash.1 "ab" (by decide) (by decide)

/-- C10 counterexample: the pattern `"a "` contains no metacharacter, yet
appending the trailing backslash changes the extracted prefix, because the
backslash shields the trailing space from trimming. -/
theorem c10_trailing_backslash_space :
    (∀ c ∈ ("a " : String).data, isRegexMetaChar c = false) ∧
    extractLiteralPrefix ("a " ++ "\\") ≠ extractLiteralPrefix "a " := by
  refine ⟨by decide, by decide⟩

/-- C1: at a path whose metadata fetch returns absent/null, the configuration
listing fails fatally as claimed; but the adapter-paths listing also fails
fatally, because the caught region covers only a rejected fetch, and the null
result reaches the unguarded field access. The third conjunct shows the
per-item tolerance the claim describes does hold for a fetch that rejects:
the failing root is dropped and the other root is still returned. -/
theorem c1_missing_metadata_fatal_in_both :
    listFilesInObsFolder "a" vaultMissingA "p" false 1
      = some (.error "something goes wrong while listing hidden folder") ∧
    listFilesByAdapterPaths ["a", "b"] vaultMissingA 1
      = some (.error "TypeError: statRes is undefined") ∧
    listFilesByAdapterPaths ["a", "b"] vaultThrowA 1
      = some (.ok [{ key := "b", keyRaw := "b", mtimeCli := some 3, mtimeSvr := some 3,
                     size := 2, sizeRaw := 2 }]) := by
  refine ⟨rfl, rfl, rfl⟩

/-! ### Invariant machinery for the breadth-first traversals -/

theorem mapExcept_ok_mem {α : Type} {f : String → Except String α} :
    ∀ {xs : List String} {rs : List α}, mapExcept f xs = .ok rs →
      ∀ r ∈ rs, ∃ x ∈ xs, f x = .ok r := by
  intro xs
  induction xs with
  | nil =>
    intro rs h r hr
    simp only [mapExcept, Except.ok.injEq] at h
    subst h
    simp at hr
  | cons x xs ih =>
    intro rs h r hr
    simp only [mapExcept] at h
    cases hfx : f x with
    | error e => rw [hfx] at h; simp at h
    | ok y =>
      rw [hfx] at h
      cases hm : mapExcept f xs with
      | error e => rw [hm] at h; simp at h
      | ok ys =>
        rw [hm] at h
        simp only [Except.ok.injEq] at h
        subst h
        rcases List.mem_cons.1 hr with h | h
        · exact ⟨x, List.mem_cons_self _ _, h ▸ hfx⟩
        · obtain ⟨x', hx', hfx'⟩ := ih hm r h
          exact ⟨x', List.mem_cons_of_mem _ hx', hfx'⟩

theorem chunkAux_join :
    ∀ (ys : List String) (n : Nat) (cur : List String),
      (chunkAux n ys cur).flatten = cur.reverse ++ ys := by
  intro ys
  induction ys with
  | nil => intro n cur; simp [chunkAux]
  | cons y ys ih =>
    intro n cur
    cases n with
    | zero => simp [chunkAux, ih]
    | succ n => simp [chunkAux, ih]

theorem chunkList_join : ∀ l : List String, (chunkList l).flatten = l := by
  intro l
  cases l with
  | nil => rfl
  | cons x xs => simp [chunkList, chunkAux_join]

theorem absorbObs_inv {pid : String} {P : Entity → Prop} {Q : String → Prop}
    {acc : List Entity × List String} {ent : Entity} {ch : Option Children}
    (hent : P ent)
    (hch : ∀ c, ch = some c → ∀ n, (n ∈ c.folders ∨ n ∈ c.files) →
      childKeep pid ent.key n = true → Q n)
    (h1 : ∀ e ∈ acc.1, P e) (h2 : ∀ nq ∈ acc.2, Q nq) :
    (∀ e ∈ (absorbObs pid acc (ent, ch)).1, P e) ∧
    (∀ nq ∈ (absorbObs pid acc (ent, ch)).2, Q nq) := by
  cases ch with
  | none =>
    refine ⟨?_, h2⟩
    intro e he
    simp only [absorbObs] at he
    rcases List.mem_append.1 he with h | h
    · exact h1 e h
    · simp only [List.mem_singleton] at h
      exact h ▸ hent
  | some c =>
    constructor
    · intro e he
      simp only [absorbObs] at he
      rcases List.mem_append.1 he with h | h
      · exact h1 e h
      · simp only [List.mem_singleton] at h
        exact h ▸ hent
    · intro nq hnq
      simp only [absorbObs] at hnq
      rcases List.mem_append.1 hnq with h | h
      · rcases List.mem_append.1 h with h' | h'
        · exact h2 nq h'
        · have hm := List.mem_filter.1 h'
          exact hch c rfl nq (Or.inl hm.1) hm.2
      · have hm := List.mem_filter.1 h
        exact hch c rfl nq (Or.inr hm.1) hm.2

theorem foldl_absorbObs_inv {pid : String} {P : Entity → Prop} {Q : String → Prop} :
    ∀ (rs : List (Entity × Option Children)) (acc : List Entity × List String),
      (∀ r ∈ rs, P r.1 ∧ ∀ c, r.2 = some c → ∀ n, (n ∈ c.folders ∨ n ∈ c.files) →
        childKeep pid r.1.key n = true → Q n) →
      (∀ e ∈ acc.1, P e) → (∀ nq ∈ acc.2, Q nq) →
      (∀ e ∈ (rs.foldl (absorbObs pid) acc).1, P e) ∧
      (∀ nq ∈ (rs.foldl (absorbObs pid) acc).2, Q nq) := by
  intro rs
  induction rs with
  | nil => intro acc _ h1 h2; exact ⟨h1, h2⟩
  | cons r rs ih =>
    intro acc hrs h1 h2
    obtain ⟨ent, ch⟩ := r
    have hr := hrs (ent, ch) (List.mem_cons_self _ _)
    have hstep := absorbObs_inv hr.1 hr.2 h1 h2
    simp only [List.foldl_cons]
    exact ih _ (fun r' hr' => hrs r' (List.mem_cons_of_mem _ hr')) hstep.1 hstep.2

theorem runChunksObs_inv {v : Vault} {cfg pid : String} {P : Entity → Prop}
    {Q : String → Prop}
    (Hfetch : ∀ x ent ch, Q x → fetchOneObs v cfg x = .ok (ent, ch) →
      P ent ∧ ∀ c, ch = some c → ∀ n, (n ∈ c.folders ∨ n ∈ c.files) →
        childKeep pid ent.key n = true → Q n) :
    ∀ (cs : List (List String)) (contents : List Entity) (nextQ : List String)
      (out : List Entity × List String),
      (∀ x ∈ cs.flatten, Q x) → (∀ e ∈ contents, P e) → (∀ n ∈ nextQ, Q n) →
      runChunksObs v cfg pid cs contents nextQ = .ok out →
      (∀ e ∈ out.1, P e) ∧ (∀ n ∈ out.2, Q n) := by
  intro cs
  induction cs with
  | nil =>
    intro contents nextQ out _ h1 h2 hrun
    simp only [runChunksObs, Except.ok.injEq] at hrun
    subst hrun
    exact ⟨h1, h2⟩
  | cons chunk cs ih =>
    intro contents nextQ out hQ h1 h2 hrun
    simp only [runChunksObs] at hrun
    cases hm : mapExcept (fetchOneObs v cfg) chunk with
    | error e => rw [hm] at hrun; simp at hrun
    | ok rs =>
      rw [hm] at hrun
      have hrs : ∀ r ∈ rs, P r.1 ∧ ∀ c, r.2 = some c →
          ∀ n, (n ∈ c.folders ∨ n ∈ c.files) → childKeep pid r.1.key n = true → Q n := by
        intro r hr
        obtain ⟨x, hx, hfx⟩ := mapExcept_ok_mem hm r hr
        obtain ⟨ent, ch⟩ := r
        have hQx : Q x := by
          apply hQ
          exact List.mem_flatten.2 ⟨chunk, List.mem_cons_self _ _, hx⟩
        exact Hfetch x ent ch hQx hfx
      have hfold := foldl_absorbObs_inv rs (contents, nextQ) hrs h1 h2
      refine ih _ _ out ?_ hfold.1 hfold.2 hrun
      intro x hx
      apply hQ
      rcases List.mem_flatten.1 hx with ⟨c, hc, hxc⟩
      exact List.mem_flatten.2 ⟨c, List.mem_cons_of_mem _ hc, hxc⟩

theorem obsLoop_inv {v : Vault} {cfg pid : String} {bo : Bool} {P : Entity → Prop}
    {Q : String → Prop}
    (Hfetch : ∀ x ent ch, Q x → fetchOneObs v cfg x = .ok (ent, ch) →
      P ent ∧ ∀ c, ch = some c → ∀ n, (n ∈ c.folders ∨ n ∈ c.files) →
        childKeep pid ent.key n = true → Q n) :
    ∀ (fuel iter : Nat) (q : List String) (contents out : List Entity),
      (∀ x ∈ q, Q x) → (∀ e ∈ contents, P e) →
      obsLoop v cfg pid bo fuel iter q contents = some (.ok out) →
      ∀ e ∈ out, P e := by
  intro fuel
  induction fuel with
  | zero =>
    intro iter q contents out hQ hP h
    cases q with
    | nil =>
      simp only [obsLoop, Option.some.injEq, Except.ok.injEq] at h
      exact h ▸ hP
    | cons a as => simp [obsLoop] at h
  | succ fuel ih =>
    intro iter q contents out hQ hP h
    cases q with
    | nil =>
      simp only [obsLoop, Option.some.injEq, Except.ok.injEq] at h
      exact h ▸ hP
    | cons a as =>
      simp only [obsLoop] at h
      cases hr : runChunksObs v cfg pid (chunkList (a :: as)) contents [] with
      | error e => rw [hr] at h; simp at h
      | ok st =>
        rw [hr] at h
        have hst := runChunksObs_inv Hfetch _ _ _ st
          (by intro x hx; apply hQ; rwa [chunkList_join] at hx) hP (by simp) hr
        by_cases hb : (bo && decide (iter > 1)) = true
        · rw [hb] at h
          simp only [if_true, Option.some.injEq, Except.ok.injEq] at h
          exact h ▸ hst.1
        · rw [Bool.not_eq_true] at hb
          rw [hb] at h
          simp only [Bool.false_eq_true, if_false] at h
          exact ih _ _ _ _ hst.2 hst.1 h

theorem fetchOneObs_eq_of_found {v : Vault} {cfg x : String} {s : StatRes}
    (hstat : v.stat x = .found s) :
    fetchOneObs v cfg x =
      if !(s.type == "folder") && (s.mtime == none || s.mtime == some 0) then
        .error ("File in Obsidian " ++ cfg ++ " has last modified time 0: " ++ x)
      else
        .ok ({ key := if s.type == "folder" then x ++ "/" else x
               keyRaw := if s.type == "folder" then x ++ "/" else x
               mtimeCli := s.mtime
               mtimeSvr := s.mtime
               size := s.size
               sizeRaw := s.size },
             if s.type == "folder" then some (v.list x) else none) := by
  unfold fetchOneObs
  rw [hstat]

theorem fetchOneAdapter_eq_of_found {v : Vault} {x : String} {s : StatRes}
    (hstat : v.stat x = .found s) :
    fetchOneAdapter v x =
      .ok (some ({ key := if s.type == "folder" then x ++ "/" else x
                   keyRaw := if s.type == "folder" then x ++ "/" else x
                   mtimeCli := s.mtime
                   mtimeSvr := s.mtime
                   size := s.size
                   sizeRaw := s.size },
                  if s.type == "folder" then some (v.list x) else none)) := by
  unfold fetchOneAdapter
  rw [hstat]

theorem stemOf_append_slash (x : String) : stemOf (x ++ "/") = x := by
  unfold stemOf
  rw [strHasSuffix_append_slash]
  simp only [if_true]
  apply string_ext_data
  rw [string_data_append, show ("/" : String).data = ['/'] from rfl]
  exact List.dropLast_concat

theorem stemOf_of_no_slash {x : String} (h : strHasSuffix x "/" = false) :
    stemOf x = x := by
  unfold stemOf
  rw [h]
  simp

/-- Unpack a successful run of the public configuration listing into the
underlying traversal output: every returned entity came from the traversal,
and in bookmarks-only mode it additionally passed the final key filter. -/
theorem listFiles_mem_traverse {cfg : String} {v : Vault} {pid : String}
    {bo : Bool} {fuel : Nat} {out : List Entity}
    (h : listFilesInObsFolder cfg v pid bo fuel = some (.ok out)) :
    ∃ out0, obsTraverse cfg v pid bo fuel = some (.ok out0) ∧
      ∀ e ∈ out, e ∈ out0 ∧ (bo = true →
        (e.key == cfg ++ "/" || e.key == cfg ++ "/bookmarks.json") = true) := by
  unfold listFilesInObsFolder at h
  cases htr : obsTraverse cfg v pid bo fuel with
  | none => rw [htr] at h; simp at h
  | some r =>
    rw [htr] at h
    cases r with
    | error msg => simp [Except.map] at h
    | ok out0 =>
      simp only [Option.map_some', Except.map, Option.some.injEq,
        Except.ok.injEq] at h
      refine ⟨out0, rfl, ?_⟩
      intro e he
      cases bo with
      | false =>
        rw [if_neg (by simp)] at h
        subst h
        exact ⟨he, by intro hb; cases hb⟩
      | true =>
        rw [if_pos rfl] at h
        subst h
        have hm := List.mem_filter.1 he
        exact ⟨hm.1, fun _ => hm.2⟩

/-- C5 (amended): in bookmarks-only mode every returned entity's key is
exactly the root folder key or the root bookmarks key. There are thus at most
two distinct keys, but the claimed bound of at most two entities fails, since
the same path can be listed, visited and returned more than once. -/
theorem c5_bookmarks_only_keys (v : Vault) (cfg pid : String) (fuel : Nat)
    (out : List Entity)
    (h : listFilesInObsFolder cfg v pid true fuel = some (.ok out)) :
    ∀ e ∈ out, e.key = cfg ++ "/" ∨ e.key = cfg ++ "/bookmarks.json" := by
  obtain ⟨out0, _, hmem⟩ := listFiles_mem_traverse h
  intro e he
  have hp := (hmem e he).2 rfl
  rw [Bool.or_eq_true] at hp
  rcases hp with h1 | h1
  · exact Or.inl (by simpa using h1)
  · exact Or.inr (by simpa using h1)

/-- C5 witness: the keys property applied to a run over the storage with the
duplicated bookmarks child; the first returned entity has the root folder
key. -/
theorem c5_bookmarks_only_keys_witness :
    ({ key := "c/", keyRaw := "c/", mtimeCli := some 1, mtimeSvr := some 1,
       size := 0, sizeRaw := 0 } : Entity).key = "c" ++ "/" ∨
    ({ key := "c/", keyRaw := "c/", mtimeCli := some 1, mtimeSvr := some 1,
       size := 0, sizeRaw := 0 } : Entity).key = "c" ++ "/bookmarks.json" :=
  c5_bookmarks_only_keys vaultDupBookmarks "c" "p" 3 _ rfl _ (by decide)

/-- C5 counterexample: on a storage that lists the same bookmarks path twice,
bookmarks-only listing returns three entities, exceeding the claimed bound of
two. -/
theorem c5_bookmarks_only_three_entities :
    listFilesInObsFolder "c" vaultDupBookmarks "p" true 3
      = some (.ok [{ key := "c/", keyRaw := "c/", mtimeCli := some 1, mtimeSvr := some 1,
                     size := 0, sizeRaw := 0 },
                   { key := "c/bookmarks.json", keyRaw := "c/bookmarks.json",
                     mtimeCli := some 5, mtimeSvr := some 5, size := 7, sizeRaw := 7 },
                   { key := "c/bookmarks.json", keyRaw := "c/bookmarks.json",
                     mtimeCli := some 5, mtimeSvr := some 5, size := 7, sizeRaw := 7 }]) ∧
    2 < ([{ key := "c/", keyRaw := "c/", mtimeCli := some 1, mtimeSvr := some 1,
            size := 0, sizeRaw := 0 },
          { key := "c/bookmarks.json", keyRaw := "c/bookmarks.json",
            mtimeCli := some 5, mtimeSvr := some 5, size := 7, sizeRaw := 7 },
          { key := "c/bookmarks.json", keyRaw := "c/bookmarks.json",
            mtimeCli := some 5, mtimeSvr := some 5, size := 7, sizeRaw := 7 }] :
          List Entity).length := by
  refine ⟨rfl, by decide⟩

/-- C6 (amended): provided the configuration root itself does not match the
reserved-name predicate, no entity whose key equals `workspace` or
`workspace.json` or ends with a slash and one of them is ever returned by the
configuration listing; the root hypothesis is needed because the root is
seeded without being filtered. -/
theorem c6_reserved_names_excluded (v : Vault) (cfg pid : String) (bo : Bool)
    (fuel : Nat) (out : List Entity)
    (hcfg : isSpecialFolderNameToSkip cfg ["workspace", "workspace.json"] = false)
    (h : listFilesInObsFolder cfg v pid bo fuel = some (.ok out)) :
    ∀ e ∈ out, isSpecialFolderNameToSkip e.key ["workspace", "workspace.json"] = false := by
  obtain ⟨out0, htr, hmem⟩ := listFiles_mem_traverse h
  have Hfetch : ∀ x ent ch,
      isSpecialFolderNameToSkip x ["workspace", "workspace.json"] = false →
      fetchOneObs v cfg x = .ok (ent, ch) →
      isSpecialFolderNameToSkip ent.key ["workspace", "workspace.json"] = false ∧
      ∀ c, ch = some c → ∀ n, (n ∈ c.folders ∨ n ∈ c.files) →
        childKeep pid ent.key n = true →
        isSpecialFolderNameToSkip n ["workspace", "workspace.json"] = false := by
    intro x ent ch hQx hfetch
    cases hstat : v.stat x with
    | threw => unfold fetchOneObs at hfetch; rw [hstat] at hfetch; simp at hfetch
    | missing => unfold fetchOneObs at hfetch; rw [hstat] at hfetch; simp at hfetch
    | found s =>
      rw [fetchOneObs_eq_of_found hstat] at hfetch
      have hkeep : ∀ n, childKeep pid ent.key n = true →
          isSpecialFolderNameToSkip n ["workspace", "workspace.json"] = false := by
        intro n hk
        unfold childKeep at hk
        rw [Bool.and_eq_true] at hk
        simpa using hk.1
      cases hf : s.type == "folder" with
      | true =>
        rw [hf] at hfetch
        simp only [Bool.not_true, Bool.false_and, Bool.false_eq_true, if_false,
          if_true, Except.ok.injEq, Prod.mk.injEq] at hfetch
        obtain ⟨hent, hch⟩ := hfetch
        refine ⟨?_, ?_⟩
        · rw [← hent]
          exact special_append_slash x
        · intro c _ n _ hk
          exact hkeep n hk
      | false =>
        rw [hf] at hfetch
        cases hm : (s.mtime == none || s.mtime == some 0) with
        | true => rw [hm] at hfetch; simp at hfetch
        | false =>
          rw [hm] at hfetch
          simp only [Bool.not_false, Bool.true_and, Bool.false_eq_true, if_false,
            Except.ok.injEq, Prod.mk.injEq] at hfetch
          obtain ⟨hent, hch⟩ := hfetch
          refine ⟨by rw [← hent]; exact hQx, ?_⟩
          intro c hc
          rw [← hch] at hc
          cases hc
  intro e he
  have he0 := (hmem e he).1
  exact obsLoop_inv Hfetch fuel 0 [cfg] [] out0
    (by intro x hx; simp at hx; exact hx ▸ hcfg) (by simp) htr e he0

/-- C6 witness: the reserved-name exclusion applied to a run from the
non-reserved root `c` of the lone-file storage. -/
theorem c6_reserved_names_excluded_witness :
    isSpecialFolderNameToSkip
      ({ key := "c", keyRaw := "c", mtimeCli := some 6, mtimeSvr := some 6,
         size := 4, sizeRaw := 4 } : Entity).key
      ["workspace", "workspace.json"] = false :=
  c6_reserved_names_excluded vaultLoneFile "c" "p" false 1 _ (by decide) rfl _ (by decide)

/-- C6 counterexample: with the configuration root named `workspace`, the
root entity itself is returned with key `workspace`, which matches the
reserved-name predicate. -/
theorem c6_reserved_root_returned :
    listFilesInObsFolder "workspace" vaultWorkspaceRoot "p" false 1
      = some (.ok [{ key := "workspace", keyRaw := "workspace", mtimeCli := some 1,
                     mtimeSvr := some 1, size := 0, sizeRaw := 0 }]) ∧
    isSpecialFolderNameToSkip "workspace" ["workspace", "workspace.json"] = true := by
  refine ⟨rfl, by decide⟩

/-- C9: when the configuration root's metadata reports a non-folder with a
usable modification time, the bookmarks-only configuration listing returns
the empty list: the root entity's key is the root without a trailing slash,
which matches neither filter key, and a file contributes no children. -/
theorem c9_file_root_yields_empty (v : Vault) (cfg pid : String) (fuel : Nat)
    (s : StatRes)
    (hstat : v.stat cfg = .found s)
    (hfile : (s.type == "folder") = false)
    (hmtime : (s.mtime == none || s.mtime == some 0) = false) :
    listFilesInObsFolder cfg v pid true (fuel + 1) = some (.ok []) := by
  have hfetch : fetchOneObs v cfg cfg
      = .ok ({ key := cfg, keyRaw := cfg, mtimeCli := s.mtime, mtimeSvr := s.mtime,
               size := s.size, sizeRaw := s.size }, none) := by
    rw [fetchOneObs_eq_of_found hstat, hfile, hmtime]
    simp
  have htrav : obsTraverse cfg v pid true (fuel + 1)
      = some (.ok [{ key := cfg, keyRaw := cfg, mtimeCli := s.mtime, mtimeSvr := s.mtime,
                     size := s.size, sizeRaw := s.size }]) := by
    unfold obsTraverse
    simp [obsLoop, runChunksObs, chunkList, chunkAux, mapExcept, hfetch, absorbObs]
  unfold listFilesInObsFolder
  rw [htrav]
  simp only [Option.map_some', Except.map, if_true, Option.some.injEq, Except.ok.injEq]
  rw [List.filter_cons]
  rw [self_beq_append_false cfg "/" (by decide),
    self_beq_append_false cfg "/bookmarks.json" (by decide)]
  simp

/-- C9 witness: the empty-result theorem applied to the storage whose root
`c` is a file with modification time seven. -/
theorem c9_file_root_yields_empty_witness :
    listFilesInObsFolder "c" vaultFileRoot "p" true 1 = some (.ok []) :=
  c9_file_root_yields_empty vaultFileRoot "c" "p" 0
    { type := "file", mtime := some 7, size := 1 } rfl (by decide) (by decide)

theorem absorbAdapter_inv {P : Entity → Prop} {Q : String → Prop}
    {acc : List Entity × List String} {r : Option (Entity × Option Children)}
    (hr : ∀ ent ch, r = some (ent, ch) → P ent ∧ ∀ c, ch = some c →
      ∀ n, (n ∈ c.folders ∨ n ∈ c.files) → Q n)
    (h1 : ∀ e ∈ acc.1, P e) (h2 : ∀ nq ∈ acc.2, Q nq) :
    (∀ e ∈ (absorbAdapter acc r).1, P e) ∧
    (∀ nq ∈ (absorbAdapter acc r).2, Q nq) := by
  cases r with
  | none =>
    simp only [absorbAdapter]
    exact ⟨h1, h2⟩
  | some p =>
    obtain ⟨ent, ch⟩ := p
    have hp := hr ent ch rfl
    cases ch with
    | none =>
      simp only [absorbAdapter]
      refine ⟨?_, h2⟩
      intro e he
      rcases List.mem_append.1 he with h | h
      · exact h1 e h
      · simp only [List.mem_singleton] at h
        exact h ▸ hp.1
    | some c =>
      simp only [absorbAdapter]
      constructor
      · intro e he
        rcases List.mem_append.1 he with h | h
        · exact h1 e h
        · simp only [List.mem_singleton] at h
          exact h ▸ hp.1
      · intro nq hnq
        rcases List.mem_append.1 hnq with h | h
        · rcases List.mem_append.1 h with h' | h'
          · exact h2 nq h'
          · exact hp.2 c rfl nq (Or.inl h')
        · exact hp.2 c rfl nq (Or.inr h)

theorem foldl_absorbAdapter_inv {P : Entity → Prop} {Q : String → Prop} :
    ∀ (rs : List (Option (Entity × Option Children)))
      (acc : List Entity × List String),
      (∀ r ∈ rs, ∀ ent ch, r = some (ent, ch) → P ent ∧ ∀ c, ch = some c →
        ∀ n, (n ∈ c.folders ∨ n ∈ c.files) → Q n) →
      (∀ e ∈ acc.1, P e) → (∀ nq ∈ acc.2, Q nq) →
      (∀ e ∈ (rs.foldl absorbAdapter acc).1, P e) ∧
      (∀ nq ∈ (rs.foldl absorbAdapter acc).2, Q nq) := by
  intro rs
  induction rs with
  | nil => intro acc _ h1 h2; exact ⟨h1, h2⟩
  | cons r rs ih =>
    intro acc hrs h1 h2
    have hstep := absorbAdapter_inv (hrs r (List.mem_cons_self _ _)) h1 h2
    simp only [List.foldl_cons]
    exact ih _ (fun r' hr' => hrs r' (List.mem_cons_of_mem _ hr')) hstep.1 hstep.2

theorem runChunksAdapter_inv {v : Vault} {P : Entity → Prop} {Q : String → Prop}
    (Hfetch : ∀ x r, Q x → fetchOneAdapter v x = .ok r →
      ∀ ent ch, r = some (ent, ch) → P ent ∧ ∀ c, ch = some c →
        ∀ n, (n ∈ c.folders ∨ n ∈ c.files) → Q n) :
    ∀ (cs : List (List String)) (contents : List Entity) (nextQ : List String)
      (out : List Entity × List String),
      (∀ x ∈ cs.flatten, Q x) → (∀ e ∈ contents, P e) → (∀ n ∈ nextQ, Q n) →
      runChunksAdapter v cs contents nextQ = .ok out →
      (∀ e ∈ out.1, P e) ∧ (∀ n ∈ out.2, Q n) := by
  intro cs
  induction cs with
  | nil =>
    intro contents nextQ out _ h1 h2 hrun
    simp only [runChunksAdapter, Except.ok.injEq] at hrun
    subst hrun
    exact ⟨h1, h2⟩
  | cons chunk cs ih =>
    intro contents nextQ out hQ h1 h2 hrun
    simp only [runChunksAdapter] at hrun
    cases hm : mapExcept (fetchOneAdapter v) chunk with
    | error e => rw [hm] at hrun; simp at hrun
    | ok rs =>
      rw [hm] at hrun
      have hrs : ∀ r ∈ rs, ∀ ent ch, r = some (ent, ch) → P ent ∧ ∀ c, ch = some c →
          ∀ n, (n ∈ c.folders ∨ n ∈ c.files) → Q n := by
        intro r hr
        obtain ⟨x, hx, hfx⟩ := mapExcept_ok_mem hm r hr
        have hQx : Q x := hQ x (List.mem_flatten.2 ⟨chunk, List.mem_cons_self _ _, hx⟩)
        exact Hfetch x r hQx hfx
      have hfold := foldl_absorbAdapter_inv rs (contents, nextQ) hrs h1 h2
      refine ih _ _ out ?_ hfold.1 hfold.2 hrun
      intro x hx
      apply hQ
      rcases List.mem_flatten.1 hx with ⟨c, hc, hxc⟩
      exact List.mem_flatten.2 ⟨c, List.mem_cons_of_mem _ hc, hxc⟩

theorem rootsLoop_inv {v : Vault} {P : Entity → Prop} {Q : String → Prop}
    (Hfetch : ∀ x r, Q x → fetchOneAdapter v x = .ok r →
      ∀ ent ch, r = some (ent, ch) → P ent ∧ ∀ c, ch = some c →
        ∀ n, (n ∈ c.folders ∨ n ∈ c.files) → Q n) :
    ∀ (fuel : Nat) (q : List String) (contents out : List Entity),
      (∀ x ∈ q, Q x) → (∀ e ∈ contents, P e) →
      rootsLoop v fuel q contents = some (.ok out) →
      ∀ e ∈ out, P e := by
  intro fuel
  induction fuel with
  | zero =>
    intro q contents out hQ hP h
    cases q with
    | nil =>
      simp only [rootsLoop, Option.some.injEq, Except.ok.injEq] at h
      exact h ▸ hP
    | cons a as => simp [rootsLoop] at h
  | succ fuel ih =>
    intro q contents out hQ hP h
    cases q with
    | nil =>
      simp only [rootsLoop, Option.some.injEq, Except.ok.injEq] at h
      exact h ▸ hP
    | cons a as =>
      simp only [rootsLoop] at h
      cases hr : runChunksAdapter v (chunkList (a :: as)) contents [] with
      | error e => rw [hr] at h; simp at h
      | ok st =>
        rw [hr] at h
        have hst := runChunksAdapter_inv Hfetch _ _ _ st
          (by intro x hx; apply hQ; rwa [chunkList_join] at hx) hP (by simp) hr
        exact ih _ _ _ hst.2 hst.1 h

/-- C8 (amended): over any storage whose child listings carry no trailing
slash in a name, and for seed paths without a trailing slash, every entity
either enumerator returns satisfies the slash invariant: the stem's metadata
exists, the key ends in a slash exactly when that metadata reported a folder,
and `keyRaw` equals `key`. The no-trailing-slash conditions are needed: a
file whose queued name already ends in a slash is emitted with that
slash-terminated key (see the counterexample). -/
theorem c8_slash_iff_folder :
    (∀ (v : Vault) (cfg pid : String) (bo : Bool) (fuel : Nat) (out : List Entity),
      (∀ p n, (n ∈ (v.list p).folders ∨ n ∈ (v.list p).files) →
        strHasSuffix n "/" = false) →
      strHasSuffix cfg "/" = false →
      listFilesInObsFolder cfg v pid bo fuel = some (.ok out) →
      ∀ e ∈ out, keySlashConsistent v e = true) ∧
    (∀ (v : Vault) (roots : List String) (fuel : Nat) (out : List Entity),
      (∀ p n, (n ∈ (v.list p).folders ∨ n ∈ (v.list p).files) →
        strHasSuffix n "/" = false) →
      (∀ x ∈ seedRoots roots, strHasSuffix x "/" = false) →
      listFilesByAdapterPaths roots v fuel = some (.ok out) →
      ∀ e ∈ out, keySlashConsistent v e = true) := by
  constructor
  · intro v cfg pid bo fuel out hls hcfg h
    obtain ⟨out0, htr, hmem⟩ := listFiles_mem_traverse h
    have Hfetch : ∀ x ent ch, strHasSuffix x "/" = false →
        fetchOneObs v cfg x = .ok (ent, ch) →
        keySlashConsistent v ent = true ∧ ∀ c, ch = some c →
          ∀ n, (n ∈ c.folders ∨ n ∈ c.files) → childKeep pid ent.key n = true →
            strHasSuffix n "/" = false := by
      intro x ent ch hQx hfetch
      cases hstat : v.stat x with
      | threw => unfold fetchOneObs at hfetch; rw [hstat] at hfetch; simp at hfetch
      | missing => unfold fetchOneObs at hfetch; rw [hstat] at hfetch; simp at hfetch
      | found s =>
        rw [fetchOneObs_eq_of_found hstat] at hfetch
        cases hf : s.type == "folder" with
        | true =>
          rw [hf] at hfetch
          simp only [Bool.not_true, Bool.false_and, Bool.false_eq_true, if_false,
            if_true, Except.ok.injEq, Prod.mk.injEq] at hfetch
          obtain ⟨hent, hch⟩ := hfetch
          constructor
          · rw [← hent]
            unfold keySlashConsistent
            simp only [stemOf_append_slash, hstat, strHasSuffix_append_slash, hf]
            simp
          · intro c hc n hn _
            rw [← hch] at hc
            cases hc
            exact hls x n hn
        | false =>
          rw [hf] at hfetch
          cases hm : (s.mtime == none || s.mtime == some 0) with
          | true => rw [hm] at hfetch; simp at hfetch
          | false =>
            rw [hm] at hfetch
            simp only [Bool.not_false, Bool.true_and, Bool.false_eq_true, if_false,
              Except.ok.injEq, Prod.mk.injEq] at hfetch
            obtain ⟨hent, hch⟩ := hfetch
            constructor
            · rw [← hent]
              unfold keySlashConsistent
              simp only [stemOf_of_no_slash hQx, hstat, hQx, hf]
              simp
            · intro c hc
              rw [← hch] at hc
              cases hc
    intro e he
    exact obsLoop_inv Hfetch fuel 0 [cfg] [] out0
      (by intro x hx; simp at hx; exact hx ▸ hcfg) (by simp) htr e (hmem e he).1
  · intro v roots fuel out hls hseed h
    have Hfetch : ∀ x r, strHasSuffix x "/" = false →
        fetchOneAdapter v x = .ok r →
        ∀ ent ch, r = some (ent, ch) → keySlashConsistent v ent = true ∧
          ∀ c, ch = some c → ∀ n, (n ∈ c.folders ∨ n ∈ c.files) →
            strHasSuffix n "/" = false := by
      intro x r hQx hfetch ent ch hr
      cases hstat : v.stat x with
      | threw =>
        unfold fetchOneAdapter at hfetch
        rw [hstat] at hfetch
        simp only [Except.ok.injEq] at hfetch
        rw [← hfetch] at hr
        cases hr
      | missing => unfold fetchOneAdapter at hfetch; rw [hstat] at hfetch; simp at hfetch
      | found s =>
        rw [fetchOneAdapter_eq_of_found hstat] at hfetch
        simp only [Except.ok.injEq] at hfetch
        rw [← hfetch] at hr
        simp only [Option.some.injEq, Prod.mk.injEq] at hr
        obtain ⟨hent, hch⟩ := hr
        cases hf : s.type == "folder" with
        | true =>
          constructor
          · rw [← hent, hf]
            unfold keySlashConsistent
            simp only [if_true, stemOf_append_slash, hstat, strHasSuffix_append_slash, hf]
            simp
          · intro c hc n hn
            rw [← hch, hf] at hc
            simp only [if_true, Option.some.injEq] at hc
            rw [← hc] at hn
            exact hls x n hn
        | false =>
          constructor
          · rw [← hent, hf]
            unfold keySlashConsistent
            simp only [if_false, Bool.false_eq_true, stemOf_of_no_slash hQx, hstat,
              hQx, hf]
            simp
          · intro c hc
            rw [← hch, hf] at hc
            simp at hc
    intro e he
    exact rootsLoop_inv Hfetch fuel (seedRoots roots) [] out hseed (by simp) h e he

/-- C8 witness: the roots-side invariant applied to the lone-file storage with
root `c`. -/
theorem c8_slash_iff_folder_witness :
    keySlashConsistent vaultLoneFile
      { key := "c", keyRaw := "c", mtimeCli := some 6, mtimeSvr := some 6,
        size := 4, sizeRaw := 4 } = true :=
  c8_slash_iff_folder.2 vaultLoneFile ["c"] 1 _
    (by intro p n hn; simp [vaultLoneFile] at hn)
    (by decide) rfl _ (by decide)

/-- C8 counterexample: a storage whose folder `r` lists the file child `b/`;
that entity is returned with key `b/`, which ends in a slash although its
metadata reported a file, violating the claimed equivalence. -/
theorem c8_file_key_with_trailing_slash :
    listFilesByAdapterPaths ["r"] vaultSlashFile 2
      = some (.ok [{ key := "r/", keyRaw := "r/", mtimeCli := some 1, mtimeSvr := some 1,
                     size := 0, sizeRaw := 0 },
                   { key := "b/", keyRaw := "b/", mtimeCli := some 2, mtimeSvr := some 2,
                     size := 1, sizeRaw := 1 }]) ∧
    strHasSuffix "b/" "/" = true ∧
    vaultSlashFile.stat "b/" = .found { type := "file", mtime := some 2, size := 1 } ∧
    keySlashConsistent vaultSlashFile
      { key := "b/", keyRaw := "b/", mtimeCli := some 2, mtimeSvr := some 2,
        size := 1, sizeRaw := 1 } = false := by
  refine ⟨rfl, by decide, rfl, by decide⟩

/-! ### Round counting in bookmarks-only mode -/

theorem obsLoop_break {v : Vault} {cfg pid : String} (fuel iter : Nat)
    (q : List String) (contents : List Entity) (hiter : 2 ≤ iter) :
    obsLoop v cfg pid true (fuel + 1) iter q contents
      = obsLoop v cfg pid true 1 iter q contents := by
  cases q with
  | nil => simp [obsLoop]
  | cons a as =>
    have hd : decide (iter > 1) = true := decide_eq_true (by omega)
    simp only [obsLoop, hd]
    cases runChunksObs v cfg pid (chunkList (a :: as)) contents [] with
    | error e => rfl
    | ok st => simp

theorem obsLoop_fuel_three {v : Vault} {cfg pid : String} (fuel : Nat)
    (q : List String) (contents : List Entity) :
    obsLoop v cfg pid true (fuel + 3) 0 q contents
      = obsLoop v cfg pid true 3 0 q contents := by
  cases q with
  | nil => simp [obsLoop]
  | cons a as =>
    simp only [obsLoop]
    cases hr : runChunksObs v cfg pid (chunkList (a :: as)) contents [] with
    | error e => rfl
    | ok st =>
      simp only [decide_eq_false (by omega : ¬ (0 : Nat) > 1), Bool.and_false,
        Bool.false_eq_true, if_false]
      cases hq1 : st.2 with
      | nil => simp [obsLoop]
      | cons b bs =>
        simp only [obsLoop]
        cases hr2 : runChunksObs v cfg pid (chunkList (b :: bs)) st.1 [] with
        | error e => rfl
        | ok st2 =>
          simp only [decide_eq_false (by omega : ¬ (1 : Nat) > 1), Bool.and_false,
            Bool.false_eq_true, if_false]
          exact obsLoop_break fuel 2 st2.2 st2.1 (by omega)

theorem obsLoop_break_isSome {v : Vault} {cfg pid : String} (iter : Nat)
    (q : List String) (contents : List Entity) (hiter : 2 ≤ iter) :
    (obsLoop v cfg pid true 1 iter q contents).isSome = true := by
  cases q with
  | nil => simp [obsLoop]
  | cons a as =>
    have hd : decide (iter > 1) = true := decide_eq_true (by omega)
    simp only [obsLoop, hd]
    cases runChunksObs v cfg pid (chunkList (a :: as)) contents [] with
    | error e => rfl
    | ok st => simp

theorem obsLoop_three_isSome {v : Vault} {cfg pid : String}
    (q : List String) (contents : List Entity) :
    (obsLoop v cfg pid true 3 0 q contents).isSome = true := by
  cases q with
  | nil => simp [obsLoop]
  | cons a as =>
    simp only [obsLoop]
    cases runChunksObs v cfg pid (chunkList (a :: as)) contents [] with
    | error e => rfl
    | ok st =>
      simp only [decide_eq_false (by omega : ¬ (0 : Nat) > 1), Bool.and_false,
        Bool.false_eq_true, if_false]
      cases st.2 with
      | nil => simp [obsLoop]
      | cons b bs =>
        simp only [obsLoop]
        cases runChunksObs v cfg pid (chunkList (b :: bs)) st.1 [] with
        | error e => rfl
        | ok st2 =>
          simp only [decide_eq_false (by omega : ¬ (1 : Nat) > 1), Bool.and_false,
            Bool.false_eq_true, if_false]
          exact obsLoop_break_isSome 2 st2.2 st2.1 (by omega)

/-- C3 (amended): in bookmarks-only mode the traversal processes at most
three levels, not two: the break fires only once the round index exceeds one,
and the index is checked after a round's work, so rounds 0, 1 and 2 all run.
Formally, three units of level fuel always complete the traversal, and any
larger fuel yields the same result. -/
theorem c3_bookmarks_three_rounds (v : Vault) (cfg pid : String) (fuel : Nat)
    (hf : 3 ≤ fuel) :
    listFilesInObsFolder cfg v pid true fuel = listFilesInObsFolder cfg v pid true 3 ∧
    (obsTraverse cfg v pid true 3).isSome = true := by
  obtain ⟨k, rfl⟩ : ∃ k, fuel = k + 3 := ⟨fuel - 3, by omega⟩
  constructor
  · unfold listFilesInObsFolder obsTraverse
    rw [obsLoop_fuel_three]
  · exact obsLoop_three_isSome _ _

/-- C3 witness: four units of fuel and three units of fuel agree on the
deep-bookmarks storage. -/
theorem c3_bookmarks_three_rounds_witness :
    listFilesInObsFolder "c" vaultDeepBookmarks "p" true 4
      = listFilesInObsFolder "c" vaultDeepBookmarks "p" true 3 :=
  (c3_bookmarks_three_rounds vaultDeepBookmarks "c" "p" 4 (by omega)).1

/-- C3 counterexample: two levels of fuel are not enough — the traversal still
has queued work after rounds 0 and 1 — and the third round's results are
fetched, processed, and even returned: the entity named `c/bookmarks.json`
is discovered at depth two and survives the bookmarks-only filter. -/
theorem c3_third_round_is_processed :
    obsTraverse "c" vaultDeepBookmarks "p" true 2 = none ∧
    listFilesInObsFolder "c" vaultDeepBookmarks "p" true 3
      = some (.ok [{ key := "c/", keyRaw := "c/", mtimeCli := some 1, mtimeSvr := some 1,
                     size := 0, sizeRaw := 0 },
                   { key := "c/bookmarks.json", keyRaw := "c/bookmarks.json",
                     mtimeCli := some 5, mtimeSvr := some 5, size := 7, sizeRaw := 7 }]) := by
  refine ⟨rfl, rfl⟩

/-! ### The self-plugin child filter -/

theorem shs_absurd {c p q : String} (hp : strHasSuffix c p = true)
    (hq : strHasSuffix c q = true) (hlen : p.length ≤ q.length)
    (hqp : strHasSuffix q p = false) : False := by
  have h2 := strHasSuffix_mono hp hq hlen
  rw [hqp] at h2
  exact Bool.false_ne_true h2

theorem likely_of_suffix_dataJson {c : String}
    (h : strHasSuffix c "/remotely-save/data.json" = true) :
    isLikelyPluginSubFiles c = true := by
  have h2 : strHasSuffix c "/data.json" = true :=
    strHasSuffix_trans h (by decide)
  unfold isLikelyPluginSubFiles reqFiles
  simp only [List.any_cons, List.any_nil, Bool.or_false, Bool.or_eq_true, beq_iff_eq]
  exact Or.inl (Or.inr h2)

theorem not_likely_of_suffix_secretDb {c : String}
    (hsuf : strHasSuffix c "/remotely-save/secret.db" = true) :
    isLikelyPluginSubFiles c = false := by
  rw [Bool.eq_false_iff]
  intro hl
  unfold isLikelyPluginSubFiles reqFiles at hl
  simp only [List.any_cons, List.any_nil, Bool.or_false, Bool.or_eq_true,
    beq_iff_eq] at hl
  rcases hl with (h | h) | (h | h) | (h | h) | (h | h) | (h | h)
  · subst h; exact absurd hsuf (by decide)
  · exact shs_absurd h hsuf (by decide) (by decide)
  · subst h; exact absurd hsuf (by decide)
  · exact shs_absurd h hsuf (by decide) (by decide)
  · subst h; exact absurd hsuf (by decide)
  · exact shs_absurd h hsuf (by decide) (by decide)
  · subst h; exact absurd hsuf (by decide)
  · exact shs_absurd h hsuf (by decide) (by decide)
  · subst h; exact absurd hsuf (by decide)
  · exact shs_absurd h hsuf (by decide) (by decide)

theorem special_false_of_likely {c : String} (hl : isLikelyPluginSubFiles c = true) :
    isSpecialFolderNameToSkip c ["workspace", "workspace.json"] = false := by
  rw [Bool.eq_false_iff]
  intro hs
  unfold isSpecialFolderNameToSkip at hs
  simp only [List.any_cons, List.any_nil, Bool.or_false, Bool.or_eq_true,
    beq_iff_eq] at hs
  rcases hs with (hseq | hssuf) | (hseq | hssuf)
  · subst hseq; exact absurd hl (by decide)
  · unfold isLikelyPluginSubFiles reqFiles at hl
    simp only [List.any_cons, List.any_nil, Bool.or_false, Bool.or_eq_true,
      beq_iff_eq] at hl
    rcases hl with (h | h) | (h | h) | (h | h) | (h | h) | (h | h)
    · subst h; exact absurd hssuf (by decide)
    · exact shs_absurd h hssuf (by decide) (by decide)
    · subst h; exact absurd hssuf (by decide)
    · exact shs_absurd h hssuf (by decide) (by decide)
    · subst h; exact absurd hssuf (by decide)
    · exact shs_absurd hssuf h (by decide) (by decide)
    · subst h; exact absurd hssuf (by decide)
    · exact shs_absurd hssuf h (by decide) (by decide)
    · subst h; exact absurd hssuf (by decide)
    · exact shs_absurd hssuf h (by decide) (by decide)
  · subst hseq; exact absurd hl (by decide)
  · unfold isLikelyPluginSubFiles reqFiles at hl
    simp only [List.any_cons, List.any_nil, Bool.or_false, Bool.or_eq_true,
      beq_iff_eq] at hl
    rcases hl with (h | h) | (h | h) | (h | h) | (h | h) | (h | h)
    · subst h; exact absurd hssuf (by decide)
    · exact shs_absurd h hssuf (by decide) (by decide)
    · subst h; exact absurd hssuf (by decide)
    · exact shs_absurd h hssuf (by decide) (by decide)
    · subst h; exact absurd hssuf (by decide)
    · exact shs_absurd h hssuf (by decide) (by decide)
    · subst h; exact absurd hssuf (by decide)
    · exact shs_absurd h hssuf (by decide) (by decide)
    · subst h; exact absurd hssuf (by decide)
    · exact shs_absurd h hssuf (by decide) (by decide)

theorem childKeep_self_plugin {pid K c : String}
    (hself : isPluginDirItself K pid = true) :
    childKeep pid K c = isLikelyPluginSubFiles c := by
  unfold childKeep
  rw [hself]
  cases hl : isLikelyPluginSubFiles c with
  | true => rw [special_false_of_likely hl]; simp
  | false => simp

/-- C7: under a parent whose key marks the plugin's own directory (plugin id
`remotely-save`), a child is kept exactly when it is a known plugin sub-file;
hence a child ending in `/remotely-save/secret.db` is never enqueued while a
child ending in `/remotely-save/data.json` is. On a concrete plugin directory
the listing returns the `data.json` entity and no key ending in
`/remotely-save/secret.db`. -/
theorem c7_self_plugin_filter :
    (∀ K c : String, isPluginDirItself K "remotely-save" = true →
      childKeep "remotely-save" K c = isLikelyPluginSubFiles c) ∧
    (∀ K c : String, isPluginDirItself K "remotely-save" = true →
      strHasSuffix c "/remotely-save/secret.db" = true →
      childKeep "remotely-save" K c = false) ∧
    (∀ K c : String, isPluginDirItself K "remotely-save" = true →
      strHasSuffix c "/remotely-save/data.json" = true →
      childKeep "remotely-save" K c = true) ∧
    listFilesInObsFolder ".obsidian" vaultPluginDir "remotely-save" false 3
      = some (.ok [{ key := ".obsidian/", keyRaw := ".obsidian/", mtimeCli := some 1,
                     mtimeSvr := some 1, size := 0, sizeRaw := 0 },
                   { key := ".obsidian/plugins/remotely-save/",
                     keyRaw := ".obsidian/plugins/remotely-save/", mtimeCli := some 2,
                     mtimeSvr := some 2, size := 0, sizeRaw := 0 },
                   { key := ".obsidian/plugins/remotely-save/data.json",
                     keyRaw := ".obsidian/plugins/remotely-save/data.json",
                     mtimeCli := some 3, mtimeSvr := some 3, size := 9, sizeRaw := 9 }]) ∧
    ([{ key := ".obsidian/", keyRaw := ".obsidian/", mtimeCli := some 1,
        mtimeSvr := some 1, size := 0, sizeRaw := 0 },
      { key := ".obsidian/plugins/remotely-save/",
        keyRaw := ".obsidian/plugins/remotely-save/", mtimeCli := some 2,
        mtimeSvr := some 2, size := 0, sizeRaw := 0 },
      { key := ".obsidian/plugins/remotely-save/data.json",
        keyRaw := ".obsidian/plugins/remotely-save/data.json",
        mtimeCli := some 3, mtimeSvr := some 3, size := 9, sizeRaw := 9 }] :
      List Entity).all
        (fun e => !(strHasSuffix e.key "/remotely-save/secret.db")) = true := by
  refine ⟨?_, ?_, ?_, rfl, by decide⟩
  · intro K c h
    exact childKeep_self_plugin h
  · intro K c h hsuf
    rw [childKeep_self_plugin h]
    exact not_likely_of_suffix_secretDb hsuf
  · intro K c h hsuf
    rw [childKeep_self_plugin h]
    exact likely_of_suffix_dataJson hsuf

/-- C7 witness: the filter decisions at the concrete plugin directory key for
the two concrete children. -/
theorem c7_self_plugin_filter_witness :
    childKeep "remotely-save" ".obsidian/plugins/remotely-save/"
      ".obsidian/plugins/remotely-save/secret.db" = false ∧
    childKeep "remotely-save" ".obsidian/plugins/remotely-save/"
      ".obsidian/plugins/remotely-save/data.json" = true :=
  ⟨c7_self_plugin_filter.2.1 _ _ (by decide) (by decide),
   c7_self_plugin_filter.2.2.1 _ _ (by decide) (by decide)⟩

end ObsFolderLister
